import Mathlib

/-!
Verification of the crypto-order-book service core: a shallow embedding of
the market-order simulator (`simulateMarketBuy` / `simulateMarketSell`),
the order-book validator (`validateOrderBook`), the Redis-backed store
(`storeOrderBook` / `getFullOrderBook`), the update cycle
(`updateOrderBook`), the exchange fetch retry loop (`fetchOrderBook`), and
the WebSocket admission control (`handleConnection`), together with proofs
of the specified properties.

Numbers are modelled by `ℚ`; `Number.prototype.toFixed(d)` followed by
`parseFloat` is modelled by `roundTo d`, rounding to `d` decimal digits
with ties toward +∞ (ECMA toFixed picks the larger candidate on a tie,
which is `round` in Mathlib, i.e. `⌊x + 1/2⌋`).
-/

namespace CryptoOrderBook

/-- A price level `[price, quantity]` (source: `type PriceLevel = [number, number]`). -/
abbrev PriceLevel := ℚ × ℚ

/-- Order book snapshot (source: `interface OrderBook`). -/
structure OrderBook where
  bids : List PriceLevel
  asks : List PriceLevel
  timestamp : ℤ
deriving DecidableEq

/-- One consumed level fragment (source: `interface FillDetail`). -/
structure FillDetail where
  price : ℚ
  quantity : ℚ
deriving DecidableEq

/-- Execution result (source: `interface MarketOrderResult`); `details` is an
optional field in the source, hence `Option` here. The `status` union of
string literals is modelled by `String`. -/
structure MarketOrderResult where
  filled : ℚ
  avg_price : ℚ
  slippage_pct : ℚ
  status : String
  details : Option (List FillDetail)
deriving DecidableEq

/-- Source constant `MARKET_ORDER_CONFIG.PRICE_PRECISION` (config default `'2'`). -/
def PRICE_PRECISION : ℕ := 2

/-- Source constant `MARKET_ORDER_CONFIG.QUANTITY_PRECISION` (config default `'8'`). -/
def QUANTITY_PRECISION : ℕ := 8

/-- Model of `parseFloat(x.toFixed(d))`: round to `d` decimal digits. ECMA-262's
`toFixed` picks the larger candidate integer on a tie, which is Mathlib's
`round` (`⌊x + 1/2⌋`). -/
def roundTo (d : ℕ) (x : ℚ) : ℚ := ((round (x * 10 ^ d) : ℤ) : ℚ) / 10 ^ d

/-- The mutable locals of the level-walking loop shared by
`simulateMarketBuy` and `simulateMarketSell`. -/
structure WalkState where
  remaining : ℚ
  totalCost : ℚ
  totalFilled : ℚ
  fills : List FillDetail
deriving DecidableEq

/-- The `for (const [price, quantity] of levels)` loop body of the two
simulators: break once `remaining ≤ 0`, otherwise fill
`min(remaining, quantity)`, accumulate cost and filled amount, and push a
`FillDetail` with price and fill quantity rounded to the configured
precisions. -/
def walkLevels : List PriceLevel → WalkState → WalkState
  | [], s => s
  | (price, quantity) :: rest, s =>
    if s.remaining ≤ 0 then s
    else
      let fillQuantity := min s.remaining quantity
      walkLevels rest
        { remaining := s.remaining - fillQuantity
          totalCost := s.totalCost + fillQuantity * price
          totalFilled := s.totalFilled + fillQuantity
          fills := s.fills ++
            [⟨roundTo PRICE_PRECISION price, roundTo QUANTITY_PRECISION fillQuantity⟩] }

/-- Function `simulateMarketBuy` from `src/utils/order-book.utils.ts`: walk the ask
side; empty ask side is rejected with no `details` field. -/
def simulateMarketBuy (orderBook : OrderBook) (amount : ℚ) : MarketOrderResult :=
  match orderBook.asks with
  | [] => { filled := 0, avg_price := 0, slippage_pct := 0, status := "rejected", details := none }
  | (bestAsk, _) :: _ =>
    let s := walkLevels orderBook.asks
      { remaining := amount, totalCost := 0, totalFilled := 0, fills := [] }
    let avgPrice := if 0 < s.totalFilled then s.totalCost / s.totalFilled else 0
    let slippagePct := if 0 < s.totalFilled then ((avgPrice - bestAsk) / bestAsk) * 100 else 0
    let status := if s.totalFilled = 0 then "rejected"
      else if s.totalFilled < amount then "partial" else "filled"
    { filled := roundTo QUANTITY_PRECISION s.totalFilled
      avg_price := roundTo PRICE_PRECISION avgPrice
      slippage_pct := roundTo 4 slippagePct
      status := status
      details := some s.fills }

/-- Function `simulateMarketSell` from `src/utils/order-book.utils.ts`: walk the bid
side; empty bid side is rejected with no `details` field. -/
def simulateMarketSell (orderBook : OrderBook) (amount : ℚ) : MarketOrderResult :=
  match orderBook.bids with
  | [] => { filled := 0, avg_price := 0, slippage_pct := 0, status := "rejected", details := none }
  | (bestBid, _) :: _ =>
    let s := walkLevels orderBook.bids
      { remaining := amount, totalCost := 0, totalFilled := 0, fills := [] }
    let avgPrice := if 0 < s.totalFilled then s.totalCost / s.totalFilled else 0
    let slippagePct := if 0 < s.totalFilled then ((avgPrice - bestBid) / bestBid) * 100 else 0
    let status := if s.totalFilled = 0 then "rejected"
      else if s.totalFilled < amount then "partial" else "filled"
    { filled := roundTo QUANTITY_PRECISION s.totalFilled
      avg_price := roundTo PRICE_PRECISION avgPrice
      slippage_pct := roundTo 4 slippagePct
      status := status
      details := some s.fills }

/-- The bids loop of `validateOrderBook`: return `false` as soon as some
`bids[i][0] > bids[i-1][0]` (note the comparison is strict, so equal
adjacent prices pass). -/
def bidsSortedDesc : List PriceLevel → Bool
  | b₁ :: b₂ :: rest => if b₂.1 > b₁.1 then false else bidsSortedDesc (b₂ :: rest)
  | _ => true

/-- The asks loop of `validateOrderBook`: return `false` as soon as some
`asks[i][0] < asks[i-1][0]` (again, equal adjacent prices pass). -/
def asksSortedAsc : List PriceLevel → Bool
  | a₁ :: a₂ :: rest => if a₂.1 < a₁.1 then false else asksSortedAsc (a₂ :: rest)
  | _ => true

/-- Function `validateOrderBook` from `src/utils/order-book.utils.ts`: bids loop,
asks loop, then the crossed-book check `bids[0][0] >= asks[0][0]` when both
sides are non-empty. -/
def validateOrderBook (orderBook : OrderBook) : Bool :=
  bidsSortedDesc orderBook.bids &&
  asksSortedAsc orderBook.asks &&
  (match orderBook.bids, orderBook.asks with
   | (bestBid, _) :: _, (bestAsk, _) :: _ => !(bestBid ≥ bestAsk)
   | _, _ => true)

/-- The level walk exactly as spec §4.2 words it (second definition, for the
refinement claim): walk levels in stored order; at each level,
fill = min(remaining, level quantity); stop when the remaining amount
reaches zero or levels are exhausted; record one `(price, fill)` pair per
level touched, even partial touches. With a positive request the remaining
amount never becomes negative, so the `r ≤ 0` guard coincides with
"reaches zero". -/
def specFills : ℚ → List PriceLevel → List (ℚ × ℚ)
  | _, [] => []
  | r, (price, quantity) :: rest =>
    if r ≤ 0 then []
    else (price, min r quantity) :: specFills (r - min r quantity) rest

/-- Total fill quantity of a list of `(price, fill)` pairs. -/
def sumFills (l : List (ℚ × ℚ)) : ℚ := (l.map Prod.snd).sum

/-- Total cost (`fillQuantity * price` per level, as in the source) of a
list of `(price, fill)` pairs. -/
def costFills (l : List (ℚ × ℚ)) : ℚ := (l.map fun pf => pf.2 * pf.1).sum

/-- Sum of level quantities of a side. -/
def qtySum (levels : List PriceLevel) : ℚ := (levels.map Prod.snd).sum

/-- Output rounding applied to one recorded fill. -/
def roundFill (pf : ℚ × ℚ) : FillDetail :=
  ⟨roundTo PRICE_PRECISION pf.1, roundTo QUANTITY_PRECISION pf.2⟩

/-- A value is an integer multiple of the quantity quantum `10^-8`
(`QUANTITY_PRECISION` decimal digits). -/
def Quantized (x : ℚ) : Prop := ∃ n : ℤ, x = (n : ℚ) / 10 ^ QUANTITY_PRECISION

/-! ### Redis-backed store (`src/services/redis.service.ts`)

A Redis sorted set keys its entries by member: `ZADD key score member`
updates the score of an existing member instead of adding a second entry.
The source stores the quantity string (`quantity.toString()`) as the member
and the price (negated for bids) as the score. JS `Number.prototype.toString`
is injective on numbers, so a member is modelled by the quantity value
itself. -/

/-- One sorted-set entry `(member, score)`. -/
abbrev ZSetEntry := ℚ × ℚ

/-- Redis `ZADD key score member` upsert semantics on one entry. -/
def zadd (set : List ZSetEntry) (score member : ℚ) : List ZSetEntry :=
  if set.any fun e => e.1 = member then
    set.map fun e => if e.1 = member then (member, score) else e
  else set ++ [(member, score)]

/-- Fold `ZADD` over a list of `(score, member)` arguments, in the order the
source pushes them. -/
def zaddAll (set : List ZSetEntry) : List (ℚ × ℚ) → List ZSetEntry
  | [] => set
  | (score, member) :: rest => zaddAll (zadd set score member) rest

/-- Insertion step of the `ZRANGE` ordering: ascending score; Redis breaks
score ties by member lexicographic order, modelled here by the member value
(the tie case is irrelevant for the concrete books considered, whose stored
scores are pairwise distinct). -/
def zinsert (e : ZSetEntry) : List ZSetEntry → List ZSetEntry
  | [] => [e]
  | f :: rest =>
    if e.2 < f.2 ∨ (e.2 = f.2 ∧ e.1 ≤ f.1) then e :: f :: rest else f :: zinsert e rest

/-- Redis `ZRANGE key 0 -1 WITHSCORES`: all entries in ascending score order. -/
def zrange (set : List ZSetEntry) : List ZSetEntry := set.foldr zinsert []

/-- The two sorted sets the service keeps (`REDIS_CONFIG.BIDS_KEY` and
`REDIS_CONFIG.ASKS_KEY`). -/
structure RedisStore where
  bidsSet : List ZSetEntry
  asksSet : List ZSetEntry
deriving DecidableEq

/-- Method `RedisService.storeOrderBook`: delete both keys, then `ZADD` every bid
with score `-price` and every ask with score `price`; the member is the
quantity. The previous store contents are irrelevant because of the
deletes, so the result depends only on the book. -/
def storeOrderBook (orderBook : OrderBook) : RedisStore :=
  { bidsSet := zaddAll [] (orderBook.bids.map fun pq => (-pq.1, pq.2))
    asksSet := zaddAll [] (orderBook.asks.map fun pq => (pq.1, pq.2)) }

/-- Method `RedisService.parseRedisZRange`: each entry yields the level
`[price, quantity]`, negating the score back into a price for bids. -/
def parseRedisZRange (entries : List ZSetEntry) (isBids : Bool) : List PriceLevel :=
  entries.map fun e => (if isBids then -e.2 else e.2, e.1)

/-- Method `RedisService.getFullOrderBook`: `ZRANGE 0 -1 WITHSCORES` on both keys,
parsed back into levels; the timestamp is the read time. -/
def getFullOrderBook (store : RedisStore) (now : ℤ) : OrderBook :=
  { bids := parseRedisZRange (zrange store.bidsSet) true
    asks := parseRedisZRange (zrange store.asksSet) false
    timestamp := now }

/-- Store followed by a full read, at an unchanged clock. -/
def redisRoundTrip (orderBook : OrderBook) : OrderBook :=
  getFullOrderBook (storeOrderBook orderBook) orderBook.timestamp

/-! ### Update cycle (`src/services/order-book.service.ts`) -/

/-- Source constant `ORDER_BOOK_CONFIG.TOP_LEVELS` (config default `'10'`). -/
def TOP_LEVELS : ℕ := 10

/-- The externally observable state one update cycle acts on: the Redis
store and the sequence of messages published on the depth channel. -/
structure UpdateState where
  store : RedisStore
  published : List OrderBook
deriving DecidableEq

/-- Method `OrderBookService.updateOrderBook`: one cycle. `fetched` is the outcome
of `ccxtService.fetchOrderBook()` (`Except.error` models the thrown
terminal fetch error, swallowed by the surrounding try/catch). On a
validation failure the method logs and returns before the store write and
the publish; otherwise it stores the full book and publishes the top
`TOP_LEVELS` levels of each side. -/
def updateOrderBook (fetched : Except Unit OrderBook) (st : UpdateState) : UpdateState :=
  match fetched with
  | .error _ => st
  | .ok orderBook =>
    if validateOrderBook orderBook = false then st
    else
      { store := storeOrderBook orderBook
        published := st.published ++
          [{ bids := orderBook.bids.take TOP_LEVELS
             asks := orderBook.asks.take TOP_LEVELS
             timestamp := orderBook.timestamp }] }

/-! ### Exchange fetch retry loop (`src/services/ccxt.service.ts`) -/

/-- Result of `CcxtService.fetchOrderBook`: the returned book (`none` when
the terminal fetch error is thrown), the number of attempts performed, and
the backoff delays slept between attempts, in order. -/
structure FetchTrace where
  result : Option OrderBook
  attemptsMade : ℕ
  delays : List ℚ
deriving DecidableEq

/-- The attempt numbers `start, start+1, ...` (`len` of them); the source
iterates `attempt = 1 .. MAX_ATTEMPTS`. -/
def attemptList (start len : ℕ) : List ℕ :=
  match len with
  | 0 => []
  | n + 1 => start :: attemptList (start + 1) n

/-- The `for (attempt = ...)` loop of `CcxtService.fetchOrderBook`:
`outcome n` is what attempt `n` produces (`some book` on success, `none` on
a thrown fetch error). On failure, when the attempt is not the last one
(`attempt < MAX_ATTEMPTS`), sleep `INITIAL_DELAY_MS * BACKOFF_MULTIPLIER ^
(attempt - 1)` and continue; after the last attempt, throw. -/
def runAttempts (outcome : ℕ → Option OrderBook) (initialDelay mult : ℚ) :
    List ℕ → FetchTrace
  | [] => ⟨none, 0, []⟩
  | attempt :: rest =>
    match outcome attempt, rest with
    | some book, _ => ⟨some book, 1, []⟩
    | none, [] => ⟨none, 1, []⟩
    | none, r :: rs =>
      let t := runAttempts outcome initialDelay mult (r :: rs)
      ⟨t.result, t.attemptsMade + 1, initialDelay * mult ^ (attempt - 1) :: t.delays⟩

/-- Method `CcxtService.fetchOrderBook` with configuration
`RETRY_CONFIG.MAX_ATTEMPTS / INITIAL_DELAY_MS / BACKOFF_MULTIPLIER` left
parametric. -/
def fetchOrderBook (outcome : ℕ → Option OrderBook) (maxAttempts : ℕ)
    (initialDelay mult : ℚ) : FetchTrace :=
  runAttempts outcome initialDelay mult (attemptList 1 maxAttempts)

/-! ### WebSocket admission control (`src/gateways/depth.gateway.ts`) -/

/-- What `handleConnection` can emit to the connecting client. -/
inductive WsAction where
  | emitError
  | disconnectClient
  | emitSnapshot
deriving DecidableEq

/-- Method `DepthGateway.handleConnection`: increment the counter; if it now
exceeds `MAX_CONNECTIONS`, emit an error message and disconnect (in that
order) and return before any snapshot is sent; otherwise send the snapshot
(`snapshotOk = false` models the Redis read throwing, in which case an
error message is sent instead). Returns the new counter value and the
actions delivered to this client. -/
def handleConnection (maxConn connectedClients : ℕ) (snapshotOk : Bool) :
    ℕ × List WsAction :=
  let n := connectedClients + 1
  if maxConn < n then (n, [.emitError, .disconnectClient])
  else (n, [if snapshotOk then .emitSnapshot else .emitError])

/-- Method `DepthGateway.handleDisconnect`: decrement the counter. -/
def handleDisconnect (connectedClients : ℕ) : ℕ := connectedClients - 1

/-- Events the gateway reacts to: a connection attempt (with the snapshot
read succeeding or not) or a disconnect of a previously admitted client. -/
inductive GatewayEvent where
  | connect (snapshotOk : Bool)
  | disconnect
deriving DecidableEq

/-- One gateway step on the client counter. A rejected connection is
disconnected by the handler itself (`client.disconnect(true)`), which fires
`handleDisconnect`; both are modelled inside the same step, so after the
step the counter again counts exactly the admitted clients. -/
def gatewayStep (maxConn : ℕ) (connected : ℕ) : GatewayEvent → ℕ
  | .connect ok =>
    let r := handleConnection maxConn connected ok
    if WsAction.disconnectClient ∈ r.2 then handleDisconnect r.1 else r.1
  | .disconnect => handleDisconnect connected

/-- The admitted-subscriber count after a sequence of gateway events,
starting from no clients. -/
def gatewayRun (maxConn : ℕ) (events : List GatewayEvent) : ℕ :=
  events.foldl (gatewayStep maxConn) 0

/-- The post-loop part of the simulators (averages, slippage, status,
rounding), applied to the walked fills; bridged to the simulators by
`simulateMarketBuy_cons` and `simulateMarketSell_cons`. -/
def simulateFromFills (amount best : ℚ) (fills : List (ℚ × ℚ)) : MarketOrderResult :=
  { filled := roundTo QUANTITY_PRECISION (sumFills fills)
    avg_price := roundTo PRICE_PRECISION
      (if 0 < sumFills fills then costFills fills / sumFills fills else 0)
    slippage_pct := roundTo 4
      (if 0 < sumFills fills then
        (((if 0 < sumFills fills then costFills fills / sumFills fills else 0) - best)
          / best) * 100
       else 0)
    status := if sumFills fills = 0 then "rejected"
      else if sumFills fills < amount then "partial" else "filled"
    details := some (fills.map roundFill) }

/-! ### Helper lemmas -/

theorem sumFills_nil : sumFills [] = 0 := rfl

theorem sumFills_cons (pf : ℚ × ℚ) (l : List (ℚ × ℚ)) :
    sumFills (pf :: l) = pf.2 + sumFills l := by
  simp [sumFills]

theorem costFills_nil : costFills [] = 0 := rfl

theorem costFills_cons (pf : ℚ × ℚ) (l : List (ℚ × ℚ)) :
    costFills (pf :: l) = pf.2 * pf.1 + costFills l := by
  simp [costFills]

/-- The loop of the simulators decomposed through the spec-side walk: the
final state is the initial one advanced by the totals of `specFills`. -/
theorem walkLevels_eq (levels : List PriceLevel) (s : WalkState) :
    walkLevels levels s =
      { remaining := s.remaining - sumFills (specFills s.remaining levels)
        totalCost := s.totalCost + costFills (specFills s.remaining levels)
        totalFilled := s.totalFilled + sumFills (specFills s.remaining levels)
        fills := s.fills ++ (specFills s.remaining levels).map roundFill } := by
  induction levels generalizing s with
  | nil =>
    simp [walkLevels, specFills, sumFills_nil, costFills_nil]
  | cons level rest ih =>
    obtain ⟨price, quantity⟩ := level
    by_cases hr : s.remaining ≤ 0
    · simp [walkLevels, specFills, hr, sumFills_nil, costFills_nil]
    · rw [show walkLevels ((price, quantity) :: rest) s =
          walkLevels rest
            { remaining := s.remaining - min s.remaining quantity
              totalCost := s.totalCost + min s.remaining quantity * price
              totalFilled := s.totalFilled + min s.remaining quantity
              fills := s.fills ++ [⟨roundTo PRICE_PRECISION price,
                roundTo QUANTITY_PRECISION (min s.remaining quantity)⟩] } by
        simp [walkLevels, hr]]
      rw [ih]
      simp only [specFills, if_neg hr, sumFills_cons, costFills_cons, List.map_cons]
      refine WalkState.mk.injEq .. ▸ ⟨by ring, by ring, by ring, ?_⟩
      simp [roundFill]

theorem specFills_nonneg (levels : List PriceLevel) (r : ℚ) (hr : 0 ≤ r)
    (hq : ∀ pq ∈ levels, 0 ≤ pq.2) : 0 ≤ sumFills (specFills r levels) := by
  induction levels generalizing r with
  | nil => simp [specFills, sumFills_nil]
  | cons level rest ih =>
    obtain ⟨price, quantity⟩ := level
    by_cases h : r ≤ 0
    · simp [specFills, h, sumFills_nil]
    · push_neg at h
      rw [specFills, if_neg (not_le.mpr h), sumFills_cons]
      have hq0 : (0:ℚ) ≤ quantity := hq (price, quantity) (by simp)
      have hfill : (0:ℚ) ≤ min r quantity := le_min h.le hq0
      have hrec := ih (r - min r quantity)
        (by simp)
        (fun pq hpq => hq pq (by simp [hpq]))
      linarith

theorem specFills_le (levels : List PriceLevel) (r : ℚ) (hr : 0 ≤ r) :
    sumFills (specFills r levels) ≤ r := by
  induction levels generalizing r with
  | nil => simpa [specFills, sumFills_nil] using hr
  | cons level rest ih =>
    obtain ⟨price, quantity⟩ := level
    by_cases h : r ≤ 0
    · simpa [specFills, h, sumFills_nil] using hr
    · push_neg at h
      rw [specFills, if_neg (not_le.mpr h), sumFills_cons]
      have hrec := ih (r - min r quantity) (by simp)
      linarith

/-- Total filled amount in closed form: everything available up to the
request. -/
theorem specFills_eq_min (levels : List PriceLevel) (r : ℚ) (hr : 0 ≤ r)
    (hq : ∀ pq ∈ levels, 0 ≤ pq.2) :
    sumFills (specFills r levels) = min r (qtySum levels) := by
  induction levels generalizing r with
  | nil =>
    simp only [specFills, sumFills_nil, qtySum, List.map_nil, List.sum_nil]
    exact (min_eq_right hr).symm
  | cons level rest ih =>
    obtain ⟨price, quantity⟩ := level
    have hq0 : (0:ℚ) ≤ quantity := hq (price, quantity) (by simp)
    have hqsum : (0:ℚ) ≤ qtySum rest := by
      have : ∀ x ∈ (rest.map Prod.snd), (0:ℚ) ≤ x := by
        intro x hx
        obtain ⟨pq, hpq, rfl⟩ := List.mem_map.mp hx
        exact hq pq (by simp [hpq])
      exact List.sum_nonneg this
    have hqsum_cons : qtySum ((price, quantity) :: rest) = quantity + qtySum rest := by
      simp [qtySum]
    by_cases h : r ≤ 0
    · have hr0 : r = 0 := le_antisymm h hr
      subst hr0
      simp only [specFills, le_refl, if_pos, sumFills_nil, hqsum_cons]
      exact (min_eq_left (by linarith)).symm
    · push_neg at h
      rw [specFills, if_neg (not_le.mpr h), sumFills_cons,
        ih (r - min r quantity) (by simp)
          (fun pq hpq => hq pq (by simp [hpq])), hqsum_cons]
      rcases le_total r quantity with hrq | hrq
      · rw [min_eq_left hrq]
        have : min (r - r) (qtySum rest) = 0 := by
          simpa using min_eq_left hqsum
        simp only [sub_self] at this ⊢
        rw [this, min_eq_left (by linarith)]
        ring
      · rw [min_eq_right hrq]
        rcases le_total (r - quantity) (qtySum rest) with hc | hc
        · rw [min_eq_left hc, min_eq_left (by linarith)]
          ring
        · rw [min_eq_right hc, min_eq_right (by linarith)]

/-- Every level walked costs at least the floor price `p` per unit. -/
theorem costFills_ge (levels : List PriceLevel) (r p : ℚ) (hr : 0 ≤ r)
    (hq : ∀ pq ∈ levels, 0 ≤ pq.2) (hp : ∀ pq ∈ levels, p ≤ pq.1) :
    p * sumFills (specFills r levels) ≤ costFills (specFills r levels) := by
  induction levels generalizing r with
  | nil => simp [specFills, sumFills_nil, costFills_nil]
  | cons level rest ih =>
    obtain ⟨price, quantity⟩ := level
    by_cases h : r ≤ 0
    · simp [specFills, h, sumFills_nil, costFills_nil]
    · push_neg at h
      rw [specFills, if_neg (not_le.mpr h), sumFills_cons, costFills_cons]
      have hq0 : (0:ℚ) ≤ quantity := hq (price, quantity) (by simp)
      have hfill : (0:ℚ) ≤ min r quantity := le_min h.le hq0
      have hprice : p ≤ price := hp (price, quantity) (by simp)
      have hrec := ih (r - min r quantity) (by simp)
        (fun pq hpq => hq pq (by simp [hpq])) (fun pq hpq => hp pq (by simp [hpq]))
      have : p * min r quantity ≤ min r quantity * price := by
        calc p * min r quantity ≤ price * min r quantity :=
              mul_le_mul_of_nonneg_right hprice hfill
          _ = min r quantity * price := mul_comm _ _
      simp only [mul_add] at *
      linarith

/-- Every level walked pays at most the cap price `p` per unit. -/
theorem costFills_le (levels : List PriceLevel) (r p : ℚ) (hr : 0 ≤ r)
    (hq : ∀ pq ∈ levels, 0 ≤ pq.2) (hp : ∀ pq ∈ levels, pq.1 ≤ p) :
    costFills (specFills r levels) ≤ p * sumFills (specFills r levels) := by
  induction levels generalizing r with
  | nil => simp [specFills, sumFills_nil, costFills_nil]
  | cons level rest ih =>
    obtain ⟨price, quantity⟩ := level
    by_cases h : r ≤ 0
    · simp [specFills, h, sumFills_nil, costFills_nil]
    · push_neg at h
      rw [specFills, if_neg (not_le.mpr h), sumFills_cons, costFills_cons]
      have hq0 : (0:ℚ) ≤ quantity := hq (price, quantity) (by simp)
      have hfill : (0:ℚ) ≤ min r quantity := le_min h.le hq0
      have hprice : price ≤ p := hp (price, quantity) (by simp)
      have hrec := ih (r - min r quantity) (by simp)
        (fun pq hpq => hq pq (by simp [hpq])) (fun pq hpq => hp pq (by simp [hpq]))
      have : min r quantity * price ≤ p * min r quantity := by
        calc min r quantity * price = price * min r quantity := mul_comm _ _
          _ ≤ p * min r quantity := mul_le_mul_of_nonneg_right hprice hfill
      simp only [mul_add] at *
      linarith

theorem Quantized.zero : Quantized 0 := ⟨0, by simp⟩

theorem Quantized.sub {x y : ℚ} (hx : Quantized x) (hy : Quantized y) :
    Quantized (x - y) := by
  obtain ⟨n, rfl⟩ := hx
  obtain ⟨m, rfl⟩ := hy
  exact ⟨n - m, by push_cast; ring⟩

theorem Quantized.add {x y : ℚ} (hx : Quantized x) (hy : Quantized y) :
    Quantized (x + y) := by
  obtain ⟨n, rfl⟩ := hx
  obtain ⟨m, rfl⟩ := hy
  exact ⟨n + m, by push_cast; ring⟩

theorem Quantized.min {x y : ℚ} (hx : Quantized x) (hy : Quantized y) :
    Quantized (min x y) := by
  rcases le_total x y with h | h
  · rw [min_eq_left h]; exact hx
  · rw [min_eq_right h]; exact hy

theorem roundTo_zero (d : ℕ) : roundTo d 0 = 0 := by
  simp [roundTo]

theorem roundTo_nonneg (d : ℕ) {x : ℚ} (hx : 0 ≤ x) : 0 ≤ roundTo d x := by
  unfold roundTo
  refine div_nonneg ?_ (by positivity)
  have hpow : (0:ℚ) ≤ 10 ^ d := by positivity
  have h0 : (0:ℤ) ≤ round (x * 10 ^ d) := by
    rw [round_eq]
    refine Int.le_floor.mpr ?_
    have := mul_nonneg hx hpow
    push_cast
    linarith
  exact_mod_cast h0

theorem roundTo_nonpos (d : ℕ) {x : ℚ} (hx : x ≤ 0) : roundTo d x ≤ 0 := by
  unfold roundTo
  refine div_nonpos_of_nonpos_of_nonneg ?_ (by positivity)
  have hpow : (0:ℚ) ≤ 10 ^ d := by positivity
  have h0 : round (x * 10 ^ d) ≤ 0 := by
    rw [round_eq]
    have hx10 : x * 10 ^ d ≤ 0 := mul_nonpos_of_nonpos_of_nonneg hx hpow
    have hhalf : ⌊(1 / 2 : ℚ)⌋ = 0 := by norm_num
    exact le_trans (Int.floor_le_floor (by linarith)) (le_of_eq hhalf)
  exact_mod_cast h0

/-- Rounding to the quantity precision is the identity on quantized values. -/
theorem roundTo_quantized {x : ℚ} (h : Quantized x) :
    roundTo QUANTITY_PRECISION x = x := by
  obtain ⟨n, rfl⟩ := h
  unfold roundTo
  rw [div_mul_cancel₀ _ (by positivity : ((10:ℚ) ^ QUANTITY_PRECISION) ≠ 0),
    round_intCast]

/-- The walked fill amounts stay on the quantity grid. -/
theorem specFills_quantized (levels : List PriceLevel) (r : ℚ) (hr : Quantized r)
    (hq : ∀ pq ∈ levels, Quantized pq.2) :
    Quantized (sumFills (specFills r levels)) := by
  induction levels generalizing r with
  | nil => exact Quantized.zero
  | cons level rest ih =>
    obtain ⟨price, quantity⟩ := level
    by_cases h : r ≤ 0
    · simp only [specFills, if_pos h]
      exact Quantized.zero
    · rw [specFills, if_neg h, sumFills_cons]
      have hqq : Quantized quantity := hq (price, quantity) (by simp)
      exact (hr.min hqq).add
        (ih (r - min r quantity) (hr.sub (hr.min hqq))
          fun pq hpq => hq pq (by simp [hpq]))

/-- The bids loop agrees with non-strict descending adjacency. -/
theorem bidsSortedDesc_iff : ∀ l : List PriceLevel,
    bidsSortedDesc l = true ↔ List.Chain' (fun x y : PriceLevel => y.1 ≤ x.1) l
  | [] => by simp [bidsSortedDesc]
  | [x] => by simp [bidsSortedDesc]
  | x :: y :: rest => by
    rw [bidsSortedDesc, List.chain'_cons]
    by_cases h : y.1 > x.1
    · simp [if_pos h, not_le.mpr h]
    · rw [if_neg h, bidsSortedDesc_iff (y :: rest)]
      simp [not_lt.mp h]

/-- The asks loop agrees with non-strict ascending adjacency. -/
theorem asksSortedAsc_iff : ∀ l : List PriceLevel,
    asksSortedAsc l = true ↔ List.Chain' (fun x y : PriceLevel => x.1 ≤ y.1) l
  | [] => by simp [asksSortedAsc]
  | [x] => by simp [asksSortedAsc]
  | x :: y :: rest => by
    rw [asksSortedAsc, List.chain'_cons]
    by_cases h : y.1 < x.1
    · simp [if_pos h, not_le.mpr h]
    · rw [if_neg h, asksSortedAsc_iff (y :: rest)]
      simp [not_lt.mp h]

/-- In a strictly ascending list the head price bounds every later price. -/
theorem chain'_asc_head_le (p : PriceLevel) (rest : List PriceLevel)
    (h : List.Chain' (fun a b : PriceLevel => a.1 < b.1) (p :: rest)) :
    ∀ pq ∈ rest, p.1 ≤ pq.1 := by
  induction rest generalizing p with
  | nil => intro pq hpq; simp at hpq
  | cons y rest ih =>
    rw [List.chain'_cons] at h
    intro pq hpq
    rcases List.mem_cons.mp hpq with rfl | hmem
    · exact h.1.le
    · exact le_trans h.1.le (ih y h.2 pq hmem)

/-- In a strictly descending list the head price bounds every later price. -/
theorem chain'_desc_le_head (p : PriceLevel) (rest : List PriceLevel)
    (h : List.Chain' (fun a b : PriceLevel => b.1 < a.1) (p :: rest)) :
    ∀ pq ∈ rest, pq.1 ≤ p.1 := by
  induction rest generalizing p with
  | nil => intro pq hpq; simp at hpq
  | cons y rest ih =>
    rw [List.chain'_cons] at h
    intro pq hpq
    rcases List.mem_cons.mp hpq with rfl | hmem
    · exact h.1.le
    · exact le_trans (ih y h.2 pq hmem) h.1.le

theorem simulateMarketBuy_cons (bids tl : List PriceLevel) (ts : ℤ)
    (bestP bestQ amount : ℚ) :
    simulateMarketBuy ⟨bids, (bestP, bestQ) :: tl, ts⟩ amount =
      simulateFromFills amount bestP (specFills amount ((bestP, bestQ) :: tl)) := by
  show (let s := walkLevels ((bestP, bestQ) :: tl)
          { remaining := amount, totalCost := 0, totalFilled := 0, fills := [] }
        let avgPrice := if 0 < s.totalFilled then s.totalCost / s.totalFilled else 0
        let slippagePct :=
          if 0 < s.totalFilled then ((avgPrice - bestP) / bestP) * 100 else 0
        let status := if s.totalFilled = 0 then "rejected"
          else if s.totalFilled < amount then "partial" else "filled"
        ({ filled := roundTo QUANTITY_PRECISION s.totalFilled
           avg_price := roundTo PRICE_PRECISION avgPrice
           slippage_pct := roundTo 4 slippagePct
           status := status
           details := some s.fills } : MarketOrderResult)) = _
  rw [walkLevels_eq]
  simp [simulateFromFills]

theorem simulateMarketSell_cons (asks tl : List PriceLevel) (ts : ℤ)
    (bestP bestQ amount : ℚ) :
    simulateMarketSell ⟨(bestP, bestQ) :: tl, asks, ts⟩ amount =
      simulateFromFills amount bestP (specFills amount ((bestP, bestQ) :: tl)) := by
  show (let s := walkLevels ((bestP, bestQ) :: tl)
          { remaining := amount, totalCost := 0, totalFilled := 0, fills := [] }
        let avgPrice := if 0 < s.totalFilled then s.totalCost / s.totalFilled else 0
        let slippagePct :=
          if 0 < s.totalFilled then ((avgPrice - bestP) / bestP) * 100 else 0
        let status := if s.totalFilled = 0 then "rejected"
          else if s.totalFilled < amount then "partial" else "filled"
        ({ filled := roundTo QUANTITY_PRECISION s.totalFilled
           avg_price := roundTo PRICE_PRECISION avgPrice
           slippage_pct := roundTo 4 slippagePct
           status := status
           details := some s.fills } : MarketOrderResult)) = _
  rw [walkLevels_eq]
  simp [simulateFromFills]

/-- A non-positive request touches no level. -/
theorem specFills_nonpos (levels : List PriceLevel) (r : ℚ) (hr : r ≤ 0) :
    specFills r levels = [] := by
  cases levels with
  | nil => rfl
  | cons level rest =>
    obtain ⟨price, quantity⟩ := level
    simp [specFills, hr]

/-- A positive request against a non-empty side with positive quantities
fills a positive amount. -/
theorem specFills_pos (tl : List PriceLevel) (amount p q : ℚ) (hamt : 0 < amount)
    (hq : 0 < q) (htl : ∀ pq ∈ tl, 0 ≤ pq.2) :
    0 < sumFills (specFills amount ((p, q) :: tl)) := by
  rw [specFills, if_neg (not_le.mpr hamt), sumFills_cons]
  have h1 : (0:ℚ) < min amount q := lt_min hamt hq
  have h2 : 0 ≤ sumFills (specFills (amount - min amount q) tl) :=
    specFills_nonneg tl _ (by simp) htl
  linarith

/-- Status and filled-amount invariants of the shared result construction,
under exact (quantized) arithmetic. -/
theorem fromFills_invariants (amount best : ℚ) (fills : List (ℚ × ℚ))
    (hQ : Quantized (sumFills fills)) (h0 : 0 ≤ sumFills fills)
    (hle : sumFills fills ≤ amount) (hamt : 0 < amount) :
    (simulateFromFills amount best fills).filled ≤ amount ∧
    ((simulateFromFills amount best fills).status = "rejected" ↔
      (simulateFromFills amount best fills).filled = 0) ∧
    ((simulateFromFills amount best fills).status = "filled" ↔
      (simulateFromFills amount best fills).filled = amount) ∧
    ((simulateFromFills amount best fills).status = "partial" ↔
      0 < (simulateFromFills amount best fills).filled ∧
        (simulateFromFills amount best fills).filled < amount) := by
  have hfil : (simulateFromFills amount best fills).filled = sumFills fills :=
    roundTo_quantized hQ
  rcases eq_or_lt_of_le h0 with hF0 | hF0
  · have hst : (simulateFromFills amount best fills).status = "rejected" := by
      simp [simulateFromFills, ← hF0]
    rw [hfil, hst, ← hF0]
    refine ⟨hamt.le, by simp, ?_, ?_⟩
    · simp only [iff_iff_implies_and_implies]
      exact ⟨fun h => absurd h (by decide), fun h => absurd h.symm (ne_of_gt hamt)⟩
    · simp only [iff_iff_implies_and_implies]
      exact ⟨fun h => absurd h (by decide), fun h => absurd h.1 (lt_irrefl 0)⟩
  · rcases lt_or_ge (sumFills fills) amount with hlt | hge
    · have hst : (simulateFromFills amount best fills).status = "partial" := by
        simp [simulateFromFills, ne_of_gt hF0, hlt]
      rw [hfil, hst]
      refine ⟨hle, ?_, ?_, by simp [hF0, hlt]⟩
      · simp only [iff_iff_implies_and_implies]
        exact ⟨fun h => absurd h (by decide), fun h => absurd h (ne_of_gt hF0)⟩
      · simp only [iff_iff_implies_and_implies]
        exact ⟨fun h => absurd h (by decide), fun h => absurd h (ne_of_lt hlt)⟩
    · have heq : sumFills fills = amount := le_antisymm hle hge
      have hst : (simulateFromFills amount best fills).status = "filled" := by
        simp [simulateFromFills, ne_of_gt hF0, not_lt.mpr hge]
      rw [hfil, hst, heq]
      refine ⟨le_refl _, ?_, by simp, ?_⟩
      · simp only [iff_iff_implies_and_implies]
        exact ⟨fun h => absurd h (by decide), fun h => absurd h (ne_of_gt hamt)⟩
      · simp only [iff_iff_implies_and_implies]
        exact ⟨fun h => absurd h (by decide), fun h => absurd h.2 (lt_irrefl amount)⟩

/-- Validation characterised: non-strict adjacency on both sides
plus the head cross check. -/
theorem validateOrderBook_iff (b : OrderBook) :
    validateOrderBook b = true ↔
      (List.Chain' (fun x y : PriceLevel => y.1 ≤ x.1) b.bids ∧
       List.Chain' (fun x y : PriceLevel => x.1 ≤ y.1) b.asks ∧
       ∀ bb ∈ b.bids.head?, ∀ ba ∈ b.asks.head?, bb.1 < ba.1) := by
  obtain ⟨bids, asks, ts⟩ := b
  simp only [validateOrderBook, Bool.and_eq_true, bidsSortedDesc_iff, asksSortedAsc_iff]
  cases bids with
  | nil => simp
  | cons bb bidsTl =>
    cases asks with
    | nil => simp
    | cons ba asksTl =>
      obtain ⟨bbp, bbq⟩ := bb
      obtain ⟨bap, baq⟩ := ba
      simp only [List.head?_cons, Option.mem_some_iff]
      constructor
      · rintro ⟨⟨h1, h2⟩, h3⟩
        simp only [Bool.not_eq_true', decide_eq_false_iff_not, not_le] at h3
        exact ⟨h1, h2, fun x hx y hy => by subst hx; subst hy; exact h3⟩
      · rintro ⟨h1, h2, h3⟩
        refine ⟨⟨h1, h2⟩, ?_⟩
        simp only [Bool.not_eq_true', decide_eq_false_iff_not, not_le]
        exact h3 _ rfl _ rfl

theorem attemptList_length (start len : ℕ) : (attemptList start len).length = len := by
  induction len generalizing start with
  | zero => rfl
  | succ n ih => simp [attemptList, ih]

/-- The retry loop over attempts `start, ..., start+len-1`: attempt count is
bounded by `len`; the recorded delays are exactly
`initialDelay * mult ^ (n - 1)` for the failed non-final attempts `n`; the
loop succeeds exactly when some attempt in range succeeds; at least one
attempt is made when the range is non-empty. -/
theorem runAttempts_spec (outcome : ℕ → Option OrderBook) (init mult : ℚ) :
    ∀ (len start : ℕ),
      (runAttempts outcome init mult (attemptList start len)).attemptsMade ≤ len ∧
      ((runAttempts outcome init mult (attemptList start len)).delays =
        (attemptList start
            ((runAttempts outcome init mult (attemptList start len)).attemptsMade - 1)).map
          fun n => init * mult ^ (n - 1)) ∧
      (((runAttempts outcome init mult (attemptList start len)).result.isSome = true) ↔
        ∃ n, start ≤ n ∧ n < start + len ∧ (outcome n).isSome = true) ∧
      (0 < len →
        0 < (runAttempts outcome init mult (attemptList start len)).attemptsMade) := by
  intro len
  induction len with
  | zero =>
    intro start
    have heq : runAttempts outcome init mult (attemptList start 0) = ⟨none, 0, []⟩ := rfl
    rw [heq]
    refine ⟨le_refl _, rfl, ?_, by omega⟩
    simp only [Option.isSome_none, Bool.false_eq_true, false_iff]
    rintro ⟨n, h1, h2, _⟩
    omega
  | succ k ih =>
    intro start
    rw [show attemptList start (k + 1) = start :: attemptList (start + 1) k from rfl]
    cases houtcome : outcome start with
    | some book =>
      have heq : runAttempts outcome init mult (start :: attemptList (start + 1) k) =
          ⟨some book, 1, []⟩ := by
        rw [runAttempts.eq_def]
        simp [houtcome]
      rw [heq]
      refine ⟨?_, ?_, ?_, fun _ => ?_⟩
      · show 1 ≤ k + 1
        omega
      · show ([] : List ℚ) = (attemptList start (1 - 1)).map fun n => init * mult ^ (n - 1)
        rfl
      · show (some book).isSome = true ↔ _
        simp only [Option.isSome_some, true_iff]
        exact ⟨start, le_refl _, by omega, by rw [houtcome]; rfl⟩
      · show 0 < 1
        omega
    | none =>
      cases k with
      | zero =>
        have heq : runAttempts outcome init mult (start :: attemptList (start + 1) 0) =
            ⟨none, 1, []⟩ := by
          rw [runAttempts.eq_def]
          simp [houtcome, attemptList]
        rw [heq]
        refine ⟨le_refl _, rfl, ?_, fun _ => ?_⟩
        · show (none : Option OrderBook).isSome = true ↔ _
          simp only [Option.isSome_none, Bool.false_eq_true, false_iff]
          rintro ⟨n, h1, h2, h3⟩
          have : n = start := by omega
          subst this
          rw [houtcome] at h3
          exact absurd h3 (by decide)
        · show 0 < 1
          omega
      | succ k' =>
        obtain ⟨iha, ihd, ihs, ihp⟩ := ih (start + 1)
        have hpos : 0 < (runAttempts outcome init mult
            (attemptList (start + 1) (k' + 1))).attemptsMade := ihp (by omega)
        obtain ⟨j, hj⟩ : ∃ j, (runAttempts outcome init mult
            (attemptList (start + 1) (k' + 1))).attemptsMade = j + 1 :=
          ⟨(runAttempts outcome init mult
            (attemptList (start + 1) (k' + 1))).attemptsMade - 1, by omega⟩
        have heq : runAttempts outcome init mult
            (start :: attemptList (start + 1) (k' + 1)) =
            ⟨(runAttempts outcome init mult (attemptList (start + 1) (k' + 1))).result,
             (runAttempts outcome init mult
               (attemptList (start + 1) (k' + 1))).attemptsMade + 1,
             init * mult ^ (start - 1) ::
               (runAttempts outcome init mult (attemptList (start + 1) (k' + 1))).delays⟩ := by
          have hcons : attemptList (start + 1) (k' + 1) =
              (start + 1) :: attemptList (start + 2) k' := rfl
          conv_lhs => rw [hcons, runAttempts.eq_def]
          simp only [houtcome]
          rw [← hcons]
        rw [heq]
        refine ⟨?_, ?_, ?_, fun _ => ?_⟩
        · show (runAttempts outcome init mult
              (attemptList (start + 1) (k' + 1))).attemptsMade + 1 ≤ k' + 1 + 1
          omega
        · show init * mult ^ (start - 1) ::
              (runAttempts outcome init mult (attemptList (start + 1) (k' + 1))).delays =
            (attemptList start ((runAttempts outcome init mult
              (attemptList (start + 1) (k' + 1))).attemptsMade + 1 - 1)).map
              fun n => init * mult ^ (n - 1)
          rw [ihd, hj]
          rw [show (j + 1 + 1 - 1) = j + 1 from rfl,
            show attemptList start (j + 1) = start :: attemptList (start + 1) j from rfl,
            List.map_cons]
          rfl
        · show (runAttempts outcome init mult
              (attemptList (start + 1) (k' + 1))).result.isSome = true ↔ _
          rw [ihs]
          constructor
          · rintro ⟨n, h1, h2, h3⟩
            exact ⟨n, by omega, by omega, h3⟩
          · rintro ⟨n, h1, h2, h3⟩
            rcases Nat.eq_or_lt_of_le h1 with rfl | hgt
            · rw [houtcome] at h3
              exact absurd h3 (by decide)
            · exact ⟨n, by omega, by omega, h3⟩
        · show 0 < (runAttempts outcome init mult
            (attemptList (start + 1) (k' + 1))).attemptsMade + 1
          omega

/-- One gateway step keeps the admitted count within the limit. -/
theorem gatewayStep_le (maxConn c : ℕ) (e : GatewayEvent) (hc : c ≤ maxConn) :
    gatewayStep maxConn c e ≤ maxConn := by
  cases e with
  | connect ok =>
    by_cases h : maxConn < c + 1
    · simp only [gatewayStep, handleConnection, if_pos h, handleDisconnect]
      simp only [List.mem_cons, List.mem_singleton]
      norm_num
      omega
    · simp only [gatewayStep, handleConnection, if_neg h, handleDisconnect]
      cases ok <;> simp <;> omega
  | disconnect =>
    simp only [gatewayStep, handleDisconnect]
    omega

theorem gatewayRun_le_aux (maxConn : ℕ) (events : List GatewayEvent) :
    ∀ c, c ≤ maxConn → events.foldl (gatewayStep maxConn) c ≤ maxConn := by
  induction events with
  | nil => intro c hc; simpa using hc
  | cons e rest ih =>
    intro c hc
    exact ih _ (gatewayStep_le maxConn c e hc)

theorem fromFills_slippage_pos (amount best : ℚ) (fills : List (ℚ × ℚ))
    (h : 0 < sumFills fills) :
    (simulateFromFills amount best fills).slippage_pct =
      roundTo 4 ((costFills fills / sumFills fills - best) / best * 100) := by
  show roundTo 4 _ = _
  simp only [if_pos h]

theorem fromFills_slippage_zero (amount best : ℚ) (fills : List (ℚ × ℚ))
    (h : ¬ 0 < sumFills fills) :
    (simulateFromFills amount best fills).slippage_pct = 0 := by
  show roundTo 4 _ = _
  rw [if_neg h, roundTo_zero]

theorem fromFills_slippage_nonneg (amount best : ℚ) (fills : List (ℚ × ℚ))
    (hbest : 0 < best) (hge : best * sumFills fills ≤ costFills fills) :
    0 ≤ (simulateFromFills amount best fills).slippage_pct := by
  by_cases h : 0 < sumFills fills
  · rw [fromFills_slippage_pos _ _ _ h]
    refine roundTo_nonneg 4 ?_
    have h1 : best ≤ costFills fills / sumFills fills :=
      (le_div_iff₀ h).mpr (by linarith [mul_comm best (sumFills fills)])
    exact mul_nonneg (div_nonneg (by linarith) hbest.le) (by norm_num)
  · rw [fromFills_slippage_zero _ _ _ h]

theorem fromFills_slippage_nonpos (amount best : ℚ) (fills : List (ℚ × ℚ))
    (hbest : 0 < best) (hle : costFills fills ≤ best * sumFills fills) :
    (simulateFromFills amount best fills).slippage_pct ≤ 0 := by
  by_cases h : 0 < sumFills fills
  · rw [fromFills_slippage_pos _ _ _ h]
    refine roundTo_nonpos 4 ?_
    have h1 : costFills fills / sumFills fills ≤ best :=
      (div_le_iff₀ h).mpr (by linarith [mul_comm best (sumFills fills)])
    exact mul_nonpos_of_nonpos_of_nonneg
      (div_nonpos_of_nonpos_of_nonneg (by linarith) hbest.le) (by norm_num)
  · rw [fromFills_slippage_zero _ _ _ h]

/-! ### Claim theorems -/

/-- C4 (counterexample): the claim "validateOrderBook returns true iff the
bids are strictly descending with no duplicate prices ..." is false: a book
whose bids repeat the price 100000 is accepted, because the source loops
only reject a strictly increasing neighbour (`bids[i][0] > bids[i-1][0]`). -/
theorem claim4_counterexample :
    validateOrderBook ⟨[(100000, 1), (100000, 2)], [], 0⟩ = true ∧
    ¬ List.Chain' (fun x y : PriceLevel => y.1 < x.1)
      [((100000 : ℚ), (1 : ℚ)), (100000, 2)] := by
  constructor
  · decide
  · simp [List.chain'_cons]

/-- C4 (amended): `validateOrderBook` returns true iff the bids are
non-strictly descending by price, the asks are non-strictly ascending by
price (duplicate prices are accepted), and, whenever both sides are
non-empty, the best bid price is strictly below the best ask price; an
empty or one-sided book is accepted. -/
theorem claim4_validate_characterisation (b : OrderBook) :
    validateOrderBook b = true ↔
      (List.Chain' (fun x y : PriceLevel => y.1 ≤ x.1) b.bids ∧
       List.Chain' (fun x y : PriceLevel => x.1 ≤ y.1) b.asks ∧
       ∀ bb ∈ b.bids.head?, ∀ ba ∈ b.asks.head?, bb.1 < ba.1) :=
  validateOrderBook_iff b

/-- C6: when the fetched book fails `validateOrderBook`, the update cycle
returns before the store write and the publish, leaving the Redis store and
the published-message sequence exactly as they were. -/
theorem claim6_invalid_book_skips_cycle (st : UpdateState) (book : OrderBook)
    (h : validateOrderBook book = false) :
    updateOrderBook (Except.ok book) st = st := by
  simp [updateOrderBook, h]

theorem claim6_witness :
    updateOrderBook (Except.ok ⟨[(99900, 1), (100000, 2)], [], 0⟩)
      ⟨⟨[], []⟩, []⟩ = ⟨⟨[], []⟩, []⟩ :=
  claim6_invalid_book_skips_cycle ⟨⟨[], []⟩, []⟩ ⟨[(99900, 1), (100000, 2)], [], 0⟩
    (by decide)

/-- C7: a buy against an empty ask side (and a sell against an empty bid
side) is rejected with `filled = 0`, `avg_price = 0`, `slippage_pct = 0`
and no fills recorded (the `details` field is absent). -/
theorem claim7_empty_side_rejected (b : OrderBook) (amount : ℚ) :
    (b.asks = [] →
      simulateMarketBuy b amount =
        { filled := 0, avg_price := 0, slippage_pct := 0, status := "rejected",
          details := none }) ∧
    (b.bids = [] →
      simulateMarketSell b amount =
        { filled := 0, avg_price := 0, slippage_pct := 0, status := "rejected",
          details := none }) := by
  constructor
  · intro h
    simp only [simulateMarketBuy, h]
  · intro h
    simp only [simulateMarketSell, h]

theorem claim7_witness :
    simulateMarketBuy ⟨[(100000, 1)], [], 0⟩ (1/2) =
      { filled := 0, avg_price := 0, slippage_pct := 0, status := "rejected",
        details := none } ∧
    simulateMarketSell ⟨[], [(100100, 1)], 0⟩ (1/2) =
      { filled := 0, avg_price := 0, slippage_pct := 0, status := "rejected",
        details := none } :=
  ⟨(claim7_empty_side_rejected ⟨[(100000, 1)], [], 0⟩ (1/2)).1 rfl,
   (claim7_empty_side_rejected ⟨[], [(100100, 1)], 0⟩ (1/2)).2 rfl⟩

/-- C8 (Scenario A): buying 1.0 against the given book fills 1.0 at a
weighted average of exactly 100150 (hence within ±0.01 of 100150.00), with
status `filled`, exactly two fill entries, and strictly positive
slippage. -/
theorem claim8_scenarioA (t : ℤ) :
    (simulateMarketBuy ⟨[(100000, 1), (99900, 2)],
        [(100100, 1/2), (100200, 1), (100300, 2)], t⟩ 1).filled = 1 ∧
    (simulateMarketBuy ⟨[(100000, 1), (99900, 2)],
        [(100100, 1/2), (100200, 1), (100300, 2)], t⟩ 1).avg_price = 100150 ∧
    |(simulateMarketBuy ⟨[(100000, 1), (99900, 2)],
        [(100100, 1/2), (100200, 1), (100300, 2)], t⟩ 1).avg_price - 100150| ≤ 1/100 ∧
    (simulateMarketBuy ⟨[(100000, 1), (99900, 2)],
        [(100100, 1/2), (100200, 1), (100300, 2)], t⟩ 1).status = "filled" ∧
    ((simulateMarketBuy ⟨[(100000, 1), (99900, 2)],
        [(100100, 1/2), (100200, 1), (100300, 2)], t⟩ 1).details.map List.length) =
      some 2 ∧
    0 < (simulateMarketBuy ⟨[(100000, 1), (99900, 2)],
        [(100100, 1/2), (100200, 1), (100300, 2)], t⟩ 1).slippage_pct := by
  norm_num [simulateMarketBuy, walkLevels, roundTo, round_eq, min_def,
    PRICE_PRECISION, QUANTITY_PRECISION]

/-- C9: the fetch loop makes at most the configured number of attempts; the
delay slept after a failed attempt `n` (that is, before retry attempt
`n + 1`) is `initialDelay * multiplier ^ (n - 1)`, so the recorded delays
are exactly those for attempts `1 .. attemptsMade - 1` and in particular no
delay follows the last attempt; and the fetch succeeds iff some attempt
within the bound succeeds (otherwise the terminal fetch error is thrown,
modelled by `result = none`). -/
theorem claim9_fetch_retry (outcome : ℕ → Option OrderBook) (maxAttempts : ℕ)
    (init mult : ℚ) :
    (fetchOrderBook outcome maxAttempts init mult).attemptsMade ≤ maxAttempts ∧
    ((fetchOrderBook outcome maxAttempts init mult).delays =
      (attemptList 1
          ((fetchOrderBook outcome maxAttempts init mult).attemptsMade - 1)).map
        fun n => init * mult ^ (n - 1)) ∧
    (fetchOrderBook outcome maxAttempts init mult).delays.length =
      (fetchOrderBook outcome maxAttempts init mult).attemptsMade - 1 ∧
    ((fetchOrderBook outcome maxAttempts init mult).result.isSome = true ↔
      ∃ n, 1 ≤ n ∧ n ≤ maxAttempts ∧ (outcome n).isSome = true) := by
  have hunfold : fetchOrderBook outcome maxAttempts init mult =
      runAttempts outcome init mult (attemptList 1 maxAttempts) := rfl
  rw [hunfold]
  obtain ⟨ha, hd, hs, _⟩ := runAttempts_spec outcome init mult maxAttempts 1
  refine ⟨ha, hd, ?_, ?_⟩
  · rw [hd, List.length_map, attemptList_length]
  · rw [hs]
    constructor
    · rintro ⟨n, h1, h2, h3⟩
      exact ⟨n, h1, by omega, h3⟩
    · rintro ⟨n, h1, h2, h3⟩
      exact ⟨n, h1, by omega, h3⟩

/-- C10: a connection arriving when the admitted count has reached the
configured maximum is answered with an explicit error message and then
disconnected (in that order, never silently), receives no snapshot, and the
admitted-subscriber count never exceeds the maximum over any event
sequence. -/
theorem claim10_admission_control (maxConn connected : ℕ) (ok : Bool)
    (events : List GatewayEvent) (h : maxConn ≤ connected) :
    handleConnection maxConn connected ok =
      (connected + 1, [WsAction.emitError, WsAction.disconnectClient]) ∧
    WsAction.emitSnapshot ∉ (handleConnection maxConn connected ok).2 ∧
    gatewayRun maxConn events ≤ maxConn := by
  have hrej : handleConnection maxConn connected ok =
      (connected + 1, [WsAction.emitError, WsAction.disconnectClient]) := by
    simp [handleConnection, Nat.lt_succ_of_le h]
  refine ⟨hrej, ?_, gatewayRun_le_aux maxConn events 0 (Nat.zero_le _)⟩
  rw [hrej]
  simp

theorem claim10_witness :
    handleConnection 2 2 true =
      (3, [WsAction.emitError, WsAction.disconnectClient]) ∧
    WsAction.emitSnapshot ∉ (handleConnection 2 2 true).2 ∧
    gatewayRun 2 [GatewayEvent.connect true, GatewayEvent.connect true,
      GatewayEvent.connect true, GatewayEvent.disconnect] ≤ 2 :=
  claim10_admission_control 2 2 true
    [GatewayEvent.connect true, GatewayEvent.connect true,
      GatewayEvent.connect true, GatewayEvent.disconnect] (by decide)

/-- C2: against a non-empty consumed side with positive level quantities
and a positive request, the simulators perform exactly the greedy walk of
spec §4.2 (`specFills`): the recorded fills are the walk's
`(price, min(remaining, quantity))` pairs in stored order, one per level
touched, output-rounded; the filled amount is `min(requested, total side
quantity)`; and the average price is total cost ÷ total filled, rounded at
the output boundary. -/
theorem claim2_greedy_walk (b : OrderBook) (amount : ℚ) (hamt : 0 < amount)
    (hqa : ∀ pq ∈ b.asks, 0 < pq.2) (hqb : ∀ pq ∈ b.bids, 0 < pq.2) :
    (b.asks ≠ [] →
      (simulateMarketBuy b amount).details =
        some ((specFills amount b.asks).map roundFill) ∧
      (simulateMarketBuy b amount).filled =
        roundTo QUANTITY_PRECISION (min amount (qtySum b.asks)) ∧
      (simulateMarketBuy b amount).avg_price =
        roundTo PRICE_PRECISION
          (costFills (specFills amount b.asks) / sumFills (specFills amount b.asks))) ∧
    (b.bids ≠ [] →
      (simulateMarketSell b amount).details =
        some ((specFills amount b.bids).map roundFill) ∧
      (simulateMarketSell b amount).filled =
        roundTo QUANTITY_PRECISION (min amount (qtySum b.bids)) ∧
      (simulateMarketSell b amount).avg_price =
        roundTo PRICE_PRECISION
          (costFills (specFills amount b.bids) / sumFills (specFills amount b.bids))) := by
  obtain ⟨bids, asks, ts⟩ := b
  dsimp only at hqa hqb ⊢
  constructor
  · intro hne
    obtain ⟨⟨p, q⟩, tl, rfl⟩ := List.exists_cons_of_ne_nil hne
    rw [simulateMarketBuy_cons]
    have hq0 : ∀ pq ∈ (p, q) :: tl, (0:ℚ) ≤ pq.2 := fun pq hpq => (hqa pq hpq).le
    refine ⟨rfl, ?_, ?_⟩
    · show roundTo QUANTITY_PRECISION (sumFills (specFills amount ((p, q) :: tl))) = _
      rw [specFills_eq_min _ _ hamt.le hq0]
    · have hpos : 0 < sumFills (specFills amount ((p, q) :: tl)) :=
        specFills_pos tl amount p q hamt (hqa (p, q) (by simp))
          fun pq hpq => (hqa pq (by simp [hpq])).le
      show roundTo PRICE_PRECISION
          (if 0 < sumFills (specFills amount ((p, q) :: tl)) then
            costFills (specFills amount ((p, q) :: tl)) /
              sumFills (specFills amount ((p, q) :: tl))
          else 0) = _
      rw [if_pos hpos]
  · intro hne
    obtain ⟨⟨p, q⟩, tl, rfl⟩ := List.exists_cons_of_ne_nil hne
    rw [simulateMarketSell_cons]
    have hq0 : ∀ pq ∈ (p, q) :: tl, (0:ℚ) ≤ pq.2 := fun pq hpq => (hqb pq hpq).le
    refine ⟨rfl, ?_, ?_⟩
    · show roundTo QUANTITY_PRECISION (sumFills (specFills amount ((p, q) :: tl))) = _
      rw [specFills_eq_min _ _ hamt.le hq0]
    · have hpos : 0 < sumFills (specFills amount ((p, q) :: tl)) :=
        specFills_pos tl amount p q hamt (hqb (p, q) (by simp))
          fun pq hpq => (hqb pq (by simp [hpq])).le
      show roundTo PRICE_PRECISION
          (if 0 < sumFills (specFills amount ((p, q) :: tl)) then
            costFills (specFills amount ((p, q) :: tl)) /
              sumFills (specFills amount ((p, q) :: tl))
          else 0) = _
      rw [if_pos hpos]

theorem claim2_witness :
    ((⟨[((9:ℚ), (1:ℚ))], [((10:ℚ), (2:ℚ))], 0⟩ : OrderBook).asks ≠ [] →
      (simulateMarketBuy ⟨[(9, 1)], [(10, 2)], 0⟩ 1).details =
        some ((specFills 1 (⟨[(9, 1)], [(10, 2)], 0⟩ : OrderBook).asks).map roundFill) ∧
      (simulateMarketBuy ⟨[(9, 1)], [(10, 2)], 0⟩ 1).filled =
        roundTo QUANTITY_PRECISION
          (min 1 (qtySum (⟨[(9, 1)], [(10, 2)], 0⟩ : OrderBook).asks)) ∧
      (simulateMarketBuy ⟨[(9, 1)], [(10, 2)], 0⟩ 1).avg_price =
        roundTo PRICE_PRECISION
          (costFills (specFills 1 (⟨[(9, 1)], [(10, 2)], 0⟩ : OrderBook).asks) /
            sumFills (specFills 1 (⟨[(9, 1)], [(10, 2)], 0⟩ : OrderBook).asks))) ∧
    ((⟨[((9:ℚ), (1:ℚ))], [((10:ℚ), (2:ℚ))], 0⟩ : OrderBook).bids ≠ [] →
      (simulateMarketSell ⟨[(9, 1)], [(10, 2)], 0⟩ 1).details =
        some ((specFills 1 (⟨[(9, 1)], [(10, 2)], 0⟩ : OrderBook).bids).map roundFill) ∧
      (simulateMarketSell ⟨[(9, 1)], [(10, 2)], 0⟩ 1).filled =
        roundTo QUANTITY_PRECISION
          (min 1 (qtySum (⟨[(9, 1)], [(10, 2)], 0⟩ : OrderBook).bids)) ∧
      (simulateMarketSell ⟨[(9, 1)], [(10, 2)], 0⟩ 1).avg_price =
        roundTo PRICE_PRECISION
          (costFills (specFills 1 (⟨[(9, 1)], [(10, 2)], 0⟩ : OrderBook).bids) /
            sumFills (specFills 1 (⟨[(9, 1)], [(10, 2)], 0⟩ : OrderBook).bids))) :=
  claim2_greedy_walk ⟨[(9, 1)], [(10, 2)], 0⟩ 1 (by norm_num) (by decide) (by decide)

/-- C5 (code_bug evaluation): two bid levels that share a quantity collide
on the sorted-set member (`quantity.toString()`), so the second `ZADD`
overwrites the first level's score: a validated two-level book comes back
from store-then-read-full with a single bid level. -/
theorem claim5_duplicate_quantity_drops_level :
    validateOrderBook ⟨[(100000, 1), (99900, 1)], [], 0⟩ = true ∧
    (⟨[(100000, 1), (99900, 1)], [], 0⟩ : OrderBook).bids.length = 2 ∧
    (redisRoundTrip ⟨[(100000, 1), (99900, 1)], [], 0⟩).bids = [(99900, 1)] := by
  refine ⟨by decide, rfl, ?_⟩
  norm_num [redisRoundTrip, getFullOrderBook, storeOrderBook, zaddAll, zadd,
    zrange, zinsert, parseRedisZRange]

/-- C1 (counterexample): `filled ≤ requested` fails as stated: a request of
`6e-9` BTC against ample liquidity fills `6e-9` internally, but the
returned `filled` field is rounded to the 8-decimal quantity precision
(`toFixed(8)`), producing `1e-8 > 6e-9`. -/
theorem claim1_counterexample :
    ¬ ((simulateMarketBuy ⟨[], [(100, 1)], 0⟩ (3/500000000)).filled ≤
        3/500000000) := by
  norm_num [simulateMarketBuy, walkLevels, roundTo, round_eq, min_def,
    PRICE_PRECISION, QUANTITY_PRECISION]

/-- C3 (counterexample): the slippage formula does not describe the
returned value when nothing fills: buying 0 against a sorted book returns
`slippage_pct = 0` and `avg_price = 0`, while
`(avg_price − best) / best × 100` evaluates to `−100`. -/
theorem claim3_counterexample :
    List.Chain' (fun x y : PriceLevel => y.1 < x.1)
      (⟨[], [(100, 1)], 0⟩ : OrderBook).bids ∧
    List.Chain' (fun x y : PriceLevel => x.1 < y.1)
      (⟨[], [(100, 1)], 0⟩ : OrderBook).asks ∧
    (simulateMarketBuy ⟨[], [(100, 1)], 0⟩ 0).slippage_pct = 0 ∧
    ((simulateMarketBuy ⟨[], [(100, 1)], 0⟩ 0).avg_price - 100) / 100 * 100 =
      -100 := by
  refine ⟨List.chain'_nil, by simp, ?_, ?_⟩
  · norm_num [simulateMarketBuy, walkLevels, roundTo, round_eq]
  · norm_num [simulateMarketBuy, walkLevels, roundTo, round_eq]

/-- C3 (amended): on a book with strictly sorted sides and positive prices
and quantities, the returned slippage equals
`(avg_price − best) / best × 100` computed from the unrounded weighted
average and rounded to 4 decimals whenever a positive amount fills, and is
`0` when nothing fills; it is `≥ 0` for buys and `≤ 0` for sells for every
requested amount; and it is exactly `0` whenever the whole order fills at
the single best level. -/
theorem claim3_amended_slippage (b : OrderBook) (amount : ℚ)
    (hbids : List.Chain' (fun x y : PriceLevel => y.1 < x.1) b.bids)
    (hasks : List.Chain' (fun x y : PriceLevel => x.1 < y.1) b.asks)
    (hpa : ∀ pq ∈ b.asks, 0 < pq.1 ∧ 0 < pq.2)
    (hpb : ∀ pq ∈ b.bids, 0 < pq.1 ∧ 0 < pq.2) :
    0 ≤ (simulateMarketBuy b amount).slippage_pct ∧
    (simulateMarketSell b amount).slippage_pct ≤ 0 ∧
    (∀ p q tl, b.asks = (p, q) :: tl →
      (0 < sumFills (specFills amount b.asks) →
        (simulateMarketBuy b amount).slippage_pct =
          roundTo 4 ((costFills (specFills amount b.asks) /
            sumFills (specFills amount b.asks) - p) / p * 100)) ∧
      (sumFills (specFills amount b.asks) = 0 →
        (simulateMarketBuy b amount).slippage_pct = 0) ∧
      (0 < amount → amount ≤ q →
        (simulateMarketBuy b amount).slippage_pct = 0)) ∧
    (∀ p q tl, b.bids = (p, q) :: tl →
      (0 < sumFills (specFills amount b.bids) →
        (simulateMarketSell b amount).slippage_pct =
          roundTo 4 ((costFills (specFills amount b.bids) /
            sumFills (specFills amount b.bids) - p) / p * 100)) ∧
      (sumFills (specFills amount b.bids) = 0 →
        (simulateMarketSell b amount).slippage_pct = 0) ∧
      (0 < amount → amount ≤ q →
        (simulateMarketSell b amount).slippage_pct = 0)) := by
  obtain ⟨bids, asks, ts⟩ := b
  dsimp only at hbids hasks hpa hpb ⊢
  refine ⟨?_, ?_, ?_, ?_⟩
  · cases asks with
    | nil => norm_num [simulateMarketBuy]
    | cons hd tl =>
      obtain ⟨p, q⟩ := hd
      rw [simulateMarketBuy_cons]
      have hp : ∀ pq ∈ (p, q) :: tl, p ≤ pq.1 := by
        intro pq hpq
        rcases List.mem_cons.mp hpq with rfl | hm
        · exact le_refl _
        · exact chain'_asc_head_le (p, q) tl hasks pq hm
      have hge : p * sumFills (specFills amount ((p, q) :: tl)) ≤
          costFills (specFills amount ((p, q) :: tl)) := by
        rcases le_or_lt 0 amount with ha | ha
        · exact costFills_ge _ _ _ ha (fun pq hpq => (hpa pq hpq).2.le) hp
        · rw [specFills_nonpos _ _ ha.le]
          simp [sumFills_nil, costFills_nil]
      exact fromFills_slippage_nonneg amount p _ (hpa (p, q) (by simp)).1 hge
  · cases bids with
    | nil => norm_num [simulateMarketSell]
    | cons hd tl =>
      obtain ⟨p, q⟩ := hd
      rw [simulateMarketSell_cons]
      have hp : ∀ pq ∈ (p, q) :: tl, pq.1 ≤ p := by
        intro pq hpq
        rcases List.mem_cons.mp hpq with rfl | hm
        · exact le_refl _
        · exact chain'_desc_le_head (p, q) tl hbids pq hm
      have hle : costFills (specFills amount ((p, q) :: tl)) ≤
          p * sumFills (specFills amount ((p, q) :: tl)) := by
        rcases le_or_lt 0 amount with ha | ha
        · exact costFills_le _ _ _ ha (fun pq hpq => (hpb pq hpq).2.le) hp
        · rw [specFills_nonpos _ _ ha.le]
          simp [sumFills_nil, costFills_nil]
      exact fromFills_slippage_nonpos amount p _ (hpb (p, q) (by simp)).1 hle
  · rintro p q tl rfl
    rw [simulateMarketBuy_cons]
    refine ⟨fun hF => fromFills_slippage_pos amount p _ hF, ?_, ?_⟩
    · intro hF0
      exact fromFills_slippage_zero amount p _ (by rw [hF0]; exact lt_irrefl 0)
    · intro h1 h2
      have hspec : specFills amount ((p, q) :: tl) = [(p, amount)] := by
        rw [specFills, if_neg (not_le.mpr h1), min_eq_left h2, sub_self,
          specFills_nonpos tl 0 (le_refl 0)]
      rw [hspec]
      have hF : 0 < sumFills [(p, amount)] := by
        simpa [sumFills] using h1
      rw [fromFills_slippage_pos amount p _ hF]
      have hcost : costFills [(p, amount)] = amount * p := by
        simp [costFills]
      have hsum : sumFills [(p, amount)] = amount := by
        simp [sumFills]
      rw [hcost, hsum, mul_div_cancel_left₀ _ (ne_of_gt h1), sub_self, zero_div,
        zero_mul, roundTo_zero]
  · rintro p q tl rfl
    rw [simulateMarketSell_cons]
    refine ⟨fun hF => fromFills_slippage_pos amount p _ hF, ?_, ?_⟩
    · intro hF0
      exact fromFills_slippage_zero amount p _ (by rw [hF0]; exact lt_irrefl 0)
    · intro h1 h2
      have hspec : specFills amount ((p, q) :: tl) = [(p, amount)] := by
        rw [specFills, if_neg (not_le.mpr h1), min_eq_left h2, sub_self,
          specFills_nonpos tl 0 (le_refl 0)]
      rw [hspec]
      have hF : 0 < sumFills [(p, amount)] := by
        simpa [sumFills] using h1
      rw [fromFills_slippage_pos amount p _ hF]
      have hcost : costFills [(p, amount)] = amount * p := by
        simp [costFills]
      have hsum : sumFills [(p, amount)] = amount := by
        simp [sumFills]
      rw [hcost, hsum, mul_div_cancel_left₀ _ (ne_of_gt h1), sub_self, zero_div,
        zero_mul, roundTo_zero]

theorem claim3_witness :
    0 ≤ (simulateMarketBuy ⟨[((90:ℚ), (1:ℚ))], [((100:ℚ), (1:ℚ))], 0⟩ 1).slippage_pct :=
  (claim3_amended_slippage ⟨[(90, 1)], [(100, 1)], 0⟩ 1 (by simp) (by simp)
    (by decide) (by decide)).1

/-- C1 (amended): when the requested amount and all level quantities are
positive multiples of the quantity quantum `10^-8` (so that the output
rounding of `filled` is exact), every execution satisfies
`filled ≤ requested`, `status = "rejected" ↔ filled = 0`,
`status = "filled" ↔ filled = requested` (now an exact equality), and
`status = "partial" ↔ 0 < filled < requested`, for both the buy and the
sell simulator; and every non-positive requested amount yields
`status = "rejected"` with `filled = 0` (note `filled = 0 > requested`
there, which is why the claim's unconditional `filled ≤ requested`
fails). -/
theorem claim1_amended_invariants (b : OrderBook) (amount : ℚ)
    (hqa : ∀ pq ∈ b.asks, 0 < pq.2 ∧ Quantized pq.2)
    (hqb : ∀ pq ∈ b.bids, 0 < pq.2 ∧ Quantized pq.2)
    (hamt : Quantized amount) :
    (0 < amount →
      ((simulateMarketBuy b amount).filled ≤ amount ∧
       ((simulateMarketBuy b amount).status = "rejected" ↔
         (simulateMarketBuy b amount).filled = 0) ∧
       ((simulateMarketBuy b amount).status = "filled" ↔
         (simulateMarketBuy b amount).filled = amount) ∧
       ((simulateMarketBuy b amount).status = "partial" ↔
         0 < (simulateMarketBuy b amount).filled ∧
           (simulateMarketBuy b amount).filled < amount)) ∧
      ((simulateMarketSell b amount).filled ≤ amount ∧
       ((simulateMarketSell b amount).status = "rejected" ↔
         (simulateMarketSell b amount).filled = 0) ∧
       ((simulateMarketSell b amount).status = "filled" ↔
         (simulateMarketSell b amount).filled = amount) ∧
       ((simulateMarketSell b amount).status = "partial" ↔
         0 < (simulateMarketSell b amount).filled ∧
           (simulateMarketSell b amount).filled < amount))) ∧
    (amount ≤ 0 →
      (simulateMarketBuy b amount).status = "rejected" ∧
      (simulateMarketBuy b amount).filled = 0 ∧
      (simulateMarketSell b amount).status = "rejected" ∧
      (simulateMarketSell b amount).filled = 0) := by
  obtain ⟨bids, asks, ts⟩ := b
  dsimp only at hqa hqb ⊢
  constructor
  · intro hpos
    constructor
    · cases asks with
      | nil =>
        have h7 : simulateMarketBuy ⟨bids, [], ts⟩ amount =
            { filled := 0, avg_price := 0, slippage_pct := 0, status := "rejected",
              details := none } := by
          simp only [simulateMarketBuy]
        rw [h7]
        refine ⟨hpos.le, by simp, ?_, ?_⟩
        · exact ⟨fun h => absurd h (by decide), fun h => absurd h.symm (ne_of_gt hpos)⟩
        · exact ⟨fun h => absurd h (by decide), fun h => absurd h.1 (lt_irrefl 0)⟩
      | cons hd tl =>
        obtain ⟨p, q⟩ := hd
        rw [simulateMarketBuy_cons]
        exact fromFills_invariants amount p _
          (specFills_quantized _ _ hamt fun pq h => (hqa pq h).2)
          (specFills_nonneg _ _ hpos.le fun pq h => (hqa pq h).1.le)
          (specFills_le _ _ hpos.le) hpos
    · cases bids with
      | nil =>
        have h7 : simulateMarketSell ⟨[], asks, ts⟩ amount =
            { filled := 0, avg_price := 0, slippage_pct := 0, status := "rejected",
              details := none } := by
          simp only [simulateMarketSell]
        rw [h7]
        refine ⟨hpos.le, by simp, ?_, ?_⟩
        · exact ⟨fun h => absurd h (by decide), fun h => absurd h.symm (ne_of_gt hpos)⟩
        · exact ⟨fun h => absurd h (by decide), fun h => absurd h.1 (lt_irrefl 0)⟩
      | cons hd tl =>
        obtain ⟨p, q⟩ := hd
        rw [simulateMarketSell_cons]
        exact fromFills_invariants amount p _
          (specFills_quantized _ _ hamt fun pq h => (hqb pq h).2)
          (specFills_nonneg _ _ hpos.le fun pq h => (hqb pq h).1.le)
          (specFills_le _ _ hpos.le) hpos
  · intro hneg
    have hbuy : (simulateMarketBuy ⟨bids, asks, ts⟩ amount).status = "rejected" ∧
        (simulateMarketBuy ⟨bids, asks, ts⟩ amount).filled = 0 := by
      cases asks with
      | nil => exact ⟨rfl, rfl⟩
      | cons hd tl =>
        obtain ⟨p, q⟩ := hd
        rw [simulateMarketBuy_cons, specFills_nonpos _ _ hneg]
        exact ⟨by simp [simulateFromFills, sumFills],
          by simp [simulateFromFills, sumFills, roundTo_zero]⟩
    have hsell : (simulateMarketSell ⟨bids, asks, ts⟩ amount).status = "rejected" ∧
        (simulateMarketSell ⟨bids, asks, ts⟩ amount).filled = 0 := by
      cases bids with
      | nil => exact ⟨rfl, rfl⟩
      | cons hd tl =>
        obtain ⟨p, q⟩ := hd
        rw [simulateMarketSell_cons, specFills_nonpos _ _ hneg]
        exact ⟨by simp [simulateFromFills, sumFills],
          by simp [simulateFromFills, sumFills, roundTo_zero]⟩
    exact ⟨hbuy.1, hbuy.2, hsell.1, hsell.2⟩

theorem claim1_witness :
    (simulateMarketBuy ⟨[((9:ℚ), (1:ℚ))], [((10:ℚ), (1:ℚ))], 0⟩ (1/2)).filled ≤
      1/2 :=
  ((claim1_amended_invariants ⟨[(9, 1)], [(10, 1)], 0⟩ (1/2)
      (by
        intro pq hpq
        rw [List.mem_singleton] at hpq
        subst hpq
        exact ⟨by norm_num, ⟨100000000, by norm_num [QUANTITY_PRECISION]⟩⟩)
      (by
        intro pq hpq
        rw [List.mem_singleton] at hpq
        subst hpq
        exact ⟨by norm_num, ⟨100000000, by norm_num [QUANTITY_PRECISION]⟩⟩)
      ⟨50000000, by norm_num [QUANTITY_PRECISION]⟩).1 (by norm_num)).1.1

end CryptoOrderBook
